import Mathlib

/-!
Verification of the `lp` process-listing tool.

This file shallowly embeds the core of `lp` (a Linux process lister written
in Go) in Lean 4 and proves properties of the embedding:

* `lister.parseStat` / `lister.statLoop` — the positional parser for
  `/proc/[pid]/stat` records (the Go loop in `parseStat`);
* `direntCount` — the raw directory-entry counter used for open-FD counts;
* `fillChildDesc` — the whole-snapshot child/descendant aggregation;
* `lister.list` / `lister.loadProcess` — the enumeration loop with its
  error handling;
* `tableWriter` — the aligned-table renderer with terminal-width truncation.

Conventions of the embedding:

* Go byte slices holding text are modelled as `List Char`; raw byte buffers
  as `List Nat` (one `Nat` per byte).
* Go's 64-bit integer arithmetic (`time.Duration`, `int64`, `bytesize`) is
  modelled on `Int` with an explicit two's-complement wrap `wrap64` applied
  wherever the Go code performs an `int64` operation that can overflow.
* A Go runtime panic (out-of-range slice index) is modelled by an explicit
  `crash` result constructor; Go `error` returns are `err`/`Except.error`.
* I/O is factored out: each embedded function receives the bytes (or the
  open/read outcome) that the corresponding Go function would have read.
-/

deriving instance DecidableEq for Except

/-- Two's-complement wrap of an integer into the `int64` range
`[-2^63, 2^63)`; models Go `int64` overflow semantics. -/
def wrap64 (x : Int) : Int := (x + 2 ^ 63) % 2 ^ 64 - 2 ^ 63

/-- Reinterpret a `uint64` value (a `Nat` below `2^64`) as an `int64`,
modelling Go's `time.Duration(u)` conversion of a `uint64`. -/
def toInt64 (n : Nat) : Int := wrap64 (n : Int)

/-- The `process` record of lp (`type process struct`), with times in
nanoseconds (`time.Duration`) and sizes in bytes, all as mathematical
integers that the embedding wraps explicitly where Go would overflow. -/
structure process where
  pid : Int
  name : String
  cmdline : String
  ppid : Int
  pgid : Int
  rss : Int
  uptime : Int
  utime : Int
  stime : Int
  cutime : Int
  cstime : Int
  cpuTime : Int
  nthreads : Int
  nfds : Int
  nchild : Int
  ndesc : Int
  user : String
deriving Repr, DecidableEq

/-- The Go zero value `var p process`. -/
def process.zero : process :=
  { pid := 0, name := "", cmdline := "", ppid := 0, pgid := 0, rss := 0,
    uptime := 0, utime := 0, stime := 0, cutime := 0, cstime := 0,
    cpuTime := 0, nthreads := 0, nfds := 0, nchild := 0, ndesc := 0,
    user := "" }

/-- Parse a run of decimal digits with accumulator (helper for the
`strconv` models). -/
def parseDigitsAux : Nat → List Char → Option Nat
  | acc, [] => some acc
  | acc, c :: cs =>
    if '0' ≤ c ∧ c ≤ '9' then parseDigitsAux (acc * 10 + (c.toNat - 48)) cs
    else none

/-- Parse a nonempty all-digit string to a `Nat`; `none` on empty input or
any non-digit character. -/
def parseDigits : List Char → Option Nat
  | [] => none
  | l => parseDigitsAux 0 l

/-- Model of Go `strconv.ParseUint(s, 10, bitSize)`: no sign prefix,
decimal digits only, range-checked. Only the error/success split and the
value on success matter to callers. -/
def goParseUint (bitSize : Nat) (b : List Char) : Except String Nat :=
  match parseDigits b with
  | none => .error "invalid syntax"
  | some n => if n ≤ 2 ^ bitSize - 1 then .ok n else .error "value out of range"

/-- Model of Go `strconv.ParseInt(s, 10, bitSize)` (and `strconv.Atoi` for
`bitSize = 64`): optional single `+`/`-` sign, decimal digits,
range-checked. -/
def goParseInt (bitSize : Nat) (b : List Char) : Except String Int :=
  let sd : Bool × List Char :=
    match b with
    | '+' :: r => (false, r)
    | '-' :: r => (true, r)
    | r => (false, r)
  match parseDigits sd.2 with
  | none => .error "invalid syntax"
  | some n =>
    let v : Int := if sd.1 then -(n : Int) else (n : Int)
    if -(2 ^ (bitSize - 1)) ≤ v ∧ v ≤ 2 ^ (bitSize - 1) - 1 then .ok v
    else .error "value out of range"

/-- Outcome of running `parseStat` on a record's bytes: a filled record, a
returned `error`, or a Go runtime panic (`crash`) from an out-of-range
slice index. -/
inductive StatResult where
  | ok (p : process)
  | err (msg : String)
  | crash
deriving Repr, DecidableEq

/-- The `for stat[0] == ' '` space-skipping loop of `parseStat`.
Indexing `stat[0]` on an empty slice panics in Go, hence `none` there. -/
def skipSpacesGo : List Char → Option (List Char)
  | [] => none
  | c :: rest => if c = ' ' then skipSpacesGo rest else some (c :: rest)

/-- Model of `bytes.IndexByte` returning an index option instead of -1. -/
def idxOfGo (c : Char) : List Char → Option Nat
  | [] => none
  | x :: xs => if x = c then some 0 else (idxOfGo c xs).map Nat.succ

/-- Model of `bytes.LastIndexByte` returning an index option instead
of -1. -/
def lastIdxOfGo (c : Char) : List Char → Option Nat
  | [] => none
  | x :: xs =>
    match lastIdxOfGo c xs with
    | some i => some (i + 1)
    | none => if x = c then some 0 else none

/-- The `lister` of lp, with its per-run snapshot constants.  The Go
`users` cache keyed by uid is modelled by the pure lookup `userOf` (the
cache only memoizes this lookup).  `clockTick` and `uptime` are in
nanoseconds, `pageSize` in bytes. -/
structure lister where
  clockTick : Int
  pageSize : Int
  needCols : Nat
  userOf : Nat → String
  uptime : Int

/-- The derivation of the process age performed at column 22 of
`parseStat`: `uptime := l.uptime - time.Duration(startTime)*l.clockTick`,
clamped below at zero. -/
def deriveUptime (snapUp tick : Int) (startTicks : Nat) : Int :=
  let u := wrap64 (snapUp - wrap64 (toInt64 startTicks * tick))
  if u < 0 then 0 else u

/-- One iteration `col` of the positional field loop of
`lister.parseStat`, recursing on fuel (the Go loop runs `col` from 1 and
always returns at column 24, so fuel 25 at `col = 1` is never
exhausted).  Mirrors lp's loop:

* skip spaces (`stat[0]` panics on an empty slice → `crash`);
* column 2: require `(`, take the name up to the *last* `)`
  (`bytes.LastIndexByte`; Go slices `stat[1:i]` with `i = -1` when no `)`
  exists, a panic → `crash`);
* other columns: take the token up to the next space (`stat[:i]` with
  `i = -1` when there is none, a panic → `crash`), parse it positionally,
  and return after column 24 (rss).

In `{p with cstime := cs, cpuTime := wrap64 (...)}` the single outer
`wrap64` of the four-term sum equals Go's chain of `int64` additions,
since wrapping intermediate sums does not change the result modulo
`2^64`. -/
def lister.statLoop (l : lister) : Nat → Nat → List Char → process → StatResult
  | 0, _, _, _ => .crash
  | fuel + 1, col, stat, p =>
    match skipSpacesGo stat with
    | none => .crash
    | some [] => .crash
    | some (c :: rest) =>
      if col = 2 then
        if c ≠ '(' then .err "malformed /stat"
        else
          match lastIdxOfGo ')' (c :: rest) with
          | none => .crash
          | some i =>
            l.statLoop fuel (col + 1) (List.drop (i + 1) (c :: rest))
              { p with name := String.mk (List.take (i - 1) rest) }
      else
        match idxOfGo ' ' (c :: rest) with
        | none => .crash
        | some i =>
          if col = 4 then
            match goParseInt 64 (List.take i (c :: rest)) with
            | .error e => .err e
            | .ok v =>
              l.statLoop fuel (col + 1) (List.drop i (c :: rest)) { p with ppid := v }
          else if col = 5 then
            match goParseInt 64 (List.take i (c :: rest)) with
            | .error e => .err e
            | .ok v =>
              l.statLoop fuel (col + 1) (List.drop i (c :: rest)) { p with pgid := v }
          else if col = 14 then
            match goParseUint 32 (List.take i (c :: rest)) with
            | .error e => .err e
            | .ok v =>
              l.statLoop fuel (col + 1) (List.drop i (c :: rest))
                { p with utime := wrap64 ((v : Int) * l.clockTick) }
          else if col = 15 then
            match goParseUint 32 (List.take i (c :: rest)) with
            | .error e => .err e
            | .ok v =>
              l.statLoop fuel (col + 1) (List.drop i (c :: rest))
                { p with stime := wrap64 ((v : Int) * l.clockTick) }
          else if col = 16 then
            match goParseUint 32 (List.take i (c :: rest)) with
            | .error e => .err e
            | .ok v =>
              l.statLoop fuel (col + 1) (List.drop i (c :: rest))
                { p with cutime := wrap64 ((v : Int) * l.clockTick) }
          else if col = 17 then
            match goParseUint 32 (List.take i (c :: rest)) with
            | .error e => .err e
            | .ok v =>
              l.statLoop fuel (col + 1) (List.drop i (c :: rest))
                { p with cstime := wrap64 ((v : Int) * l.clockTick),
                         cpuTime := wrap64 (p.utime + p.stime + p.cutime +
                           wrap64 ((v : Int) * l.clockTick)) }
          else if col = 20 then
            match goParseInt 32 (List.take i (c :: rest)) with
            | .error e => .err e
            | .ok v =>
              l.statLoop fuel (col + 1) (List.drop i (c :: rest)) { p with nthreads := v }
          else if col = 22 then
            match goParseUint 64 (List.take i (c :: rest)) with
            | .error e => .err e
            | .ok v =>
              l.statLoop fuel (col + 1) (List.drop i (c :: rest))
                { p with uptime := deriveUptime l.uptime l.clockTick v }
          else if col = 24 then
            match goParseInt 32 (List.take i (c :: rest)) with
            | .error e => .err e
            | .ok v => .ok { p with rss := wrap64 (v * l.pageSize) }
          else l.statLoop fuel (col + 1) (List.drop i (c :: rest)) p

/-- `lister.parseStat`, applied to the bytes read from
`/proc/[pid]/stat`.  The caller's partially-filled record (pid and user
already set by `loadProcess`) is threaded through as `p`. -/
def lister.parseStat (l : lister) (p : process) (stat : List Char) : StatResult :=
  l.statLoop 25 1 stat p

/-! ## TreeAggregator: `fillChildDesc` -/

/-- Build the `byPID` map of `fillChildDesc` (`map[int]*process`): insert
each record's pid in list order, later insertions overwriting earlier
ones; a record is identified by its index in the snapshot list (the Go
code stores pointers). -/
def buildByPID : (Int → Option Nat) → Nat → List process → (Int → Option Nat)
  | m, _, [] => m
  | m, i, p :: rest =>
    buildByPID (fun q => if q = p.pid then some i else m q) (i + 1) rest

/-- `byPID` lookup: pid ↦ index of the record the Go map points at. -/
def byPID (ps : List process) : Int → Option Nat :=
  buildByPID (fun _ => none) 0 ps

/-- Index of the parent record of record `i`: `byPID[p.ppid]`.  The pid
and ppid fields are never mutated, so this lookup is constant throughout
`fillChildDesc`. -/
def parentIdx (ps : List process) (i : Nat) : Option Nat :=
  (ps.get? i).bind fun p => byPID ps p.ppid

/-- `parent.nchild++` through the `byPID` pointer, as an update of the
record at index `j`. -/
def incChild (ps : List process) (j : Nat) : List process :=
  match ps.get? j with
  | some p => ps.set j { p with nchild := p.nchild + 1 }
  | none => ps

/-- `parent.ndesc++` through the `byPID` pointer. -/
def incDesc (ps : List process) (j : Nat) : List process :=
  match ps.get? j with
  | some p => ps.set j { p with ndesc := p.ndesc + 1 }
  | none => ps

/-- One record of one generation of pass 2 of `fillChildDesc`: if the
record's parent is present, increment the parent's descendant counter and
add the parent to the next generation. -/
def genStep (par : Nat → Option Nat) (acc : List process × List Nat) (i : Nat) :
    List process × List Nat :=
  match par i with
  | none => acc
  | some j => (incDesc acc.1 j, acc.2 ++ [j])

/-- The generation loop of pass 2 (`for len(rem) > 0`), recursing on fuel.
The Go loop's termination is not structural; `fillChildDesc` supplies fuel
`ps.length + 1`, which theorem `fillChildDesc_pass2_terminates` shows is
never exhausted when the parent graph is acyclic (on a cyclic snapshot the
Go loop would not terminate at all). -/
def fillPass2 (par : Nat → Option Nat) : Nat → List process → List Nat → List process
  | 0, acc, _ => acc
  | _ + 1, acc, [] => acc
  | fuel + 1, acc, i :: rem =>
    let st := (i :: rem).foldl (genStep par) (acc, [])
    fillPass2 par fuel st.1 st.2

/-- `fillChildDesc`: pass 1 increments each present parent's immediate
child counter once per child; pass 2 walks generations, incrementing one
descendant counter per (ancestor, descendant) pair. -/
def fillChildDesc (ps : List process) : List process :=
  let par := fun i => parentIdx ps i
  let ps1 := (List.range ps.length).foldl
    (fun acc i =>
      match par i with
      | some j => incChild acc j
      | none => acc) ps
  fillPass2 par (ps.length + 1) ps1 (List.range ps.length)

/-- The transformation one pass-2 generation applies to `rem`, read off
the second component of the `genStep` fold. -/
def nextRem (ps : List process) (rem : List Nat) : List Nat :=
  (rem.foldl (genStep (fun i => parentIdx ps i)) (ps, [])).2

/-- The sequence of pass-2 generations: generation 0 is the full record
list (as indices), generation `k+1` the present parents of generation
`k`'s members. -/
def genSeq (ps : List process) : Nat → List Nat
  | 0 => List.range ps.length
  | k + 1 => nextRem ps (genSeq ps k)

/-- The parent-link relation on record indices: `b` is the index of the
present parent of `a`. -/
def ParentRel (ps : List process) (a b : Nat) : Prop := parentIdx ps a = some b

/-- Acyclicity of the snapshot's parent-link graph: no record is its own
proper ancestor. -/
def AcyclicParents (ps : List process) : Prop :=
  ∀ i, ¬ Relation.TransGen (ParentRel ps) i i

/-! ## FDCounter: `direntCount` -/

/-- Model of the `readInt` helper: read a `size`-byte little-endian
unsigned integer at byte offset `off`, failing when the buffer is too
short. -/
def readIntLE (b : List Nat) (off size : Nat) : Option Nat :=
  if b.length < off + size then none
  else some (((b.drop off).take size).foldr (fun byte acc => byte + 256 * acc) 0)

/-- `direntReclen`: the `Reclen` field of a `unix.Dirent` lives at byte
offset 16 with size 2 (after the 8-byte `Ino` and 8-byte `Off`). -/
def direntReclen (buf : List Nat) : Option Nat := readIntLE buf 16 2

/-- `direntIno`: the `Ino` field lives at byte offset 0 with size 8. -/
def direntIno (buf : List Nat) : Option Nat := readIntLE buf 0 8

/-- The record-scanning loop of `direntCount`, on the accumulated raw
buffer.  Each iteration reads the record length, slices off one record,
reads its inode, and counts it when the inode is non-zero; any failed or
inconsistent read breaks the loop.  Fuel-recursive: an iteration that
recurses has consumed `reclen ≥ 8 ≥ 1` bytes (an 8-byte inode was read
from the sliced record), so fuel `buf.length + 1` is never exhausted. -/
def direntScanLoop : Nat → List Nat → Nat
  | 0, _ => 0
  | _ + 1, [] => 0
  | fuel + 1, b :: buf0 =>
    match direntReclen (b :: buf0) with
    | none => 0
    | some reclen =>
      if (b :: buf0).length < reclen then 0
      else
        match direntIno ((b :: buf0).take reclen) with
        | none => 0
        | some ino =>
          (if ino = 0 then 0 else 1) + direntScanLoop fuel ((b :: buf0).drop reclen)

/-- `direntCount`, applied to the outcome of the `unix.ReadDirent` loop:
the chunks successively read (concatenated into the scratch buffer by the
Go loop) and an optional errno from a failed read.  On success the scanned
count minus two (for `.` and `..`) is returned; the scratch buffer itself
only provides capacity and never influences the count. -/
def direntCount (reads : List (List Nat)) (readErr : Option String) :
    Except String Int :=
  match readErr with
  | some e => .error e
  | none =>
    .ok ((direntScanLoop (reads.flatten.length + 1) reads.flatten : Int) - 2)

/-! ## Filter and the enumeration loop -/

/-- The `filter` of lp.  The two regexp predicates are modelled as opaque
boolean matchers (`MatchString`). -/
structure filter where
  nameRe : Option (String → Bool)
  cmdRe : Option (String → Bool)
  pid : Int
  ppid : Int
  pgid : Int
  thisPID : Int
  user : String

/-- `filter.include`, mirroring lp's switch — including its duplicated
ppid case — with absent/zero-valued predicates always satisfied. -/
def filter.includeP (f : filter) (p : process) : Bool :=
  if f.thisPID = p.pid then false
  else if f.user ≠ "" ∧ f.user ≠ p.user then false
  else if (match f.nameRe with | some m => !(m p.name) | none => false) then false
  else if (match f.cmdRe with | some m => !(m p.cmdline) | none => false) then false
  else if f.pid ≠ 0 ∧ f.pid ≠ p.pid then false
  else if f.ppid ≠ 0 ∧ f.ppid ≠ p.ppid then false
  else if f.ppid ≠ 0 ∧ f.ppid ≠ p.ppid then false
  else if f.pgid ≠ 0 ∧ f.pgid ≠ p.pgid then false
  else true

/-- Column bits, in canonical order (`colPID = 1 << 0` … `colCmdline =
1 << 16`). -/
def colPID : Nat := 1
def colPPID : Nat := 2
def colUser : Nat := 4
def colName : Nat := 8
def colPGID : Nat := 16
def colRSS : Nat := 32
def colUptime : Nat := 64
def colUtime : Nat := 128
def colStime : Nat := 256
def colCutime : Nat := 512
def colCstime : Nat := 1024
def colCPUTime : Nat := 2048
def colNThreads : Nat := 4096
def colNFDs : Nat := 8192
def colNChild : Nat := 16384
def colNDesc : Nat := 32768
def colCmdline : Nat := 65536

/-- `column.has`: bitwise-and non-zero. -/
def colHas (c col : Nat) : Bool := c &&& col ≠ 0

/-- Outcome of opening and reading a process's `/proc/[pid]/fd`
directory: permission denied at open, another open error, or an opened
stream whose `ReadDirent` loop yields `reads` and possibly an errno. -/
inductive FDRes where
  | permDenied
  | openErr (e : String)
  | opened (reads : List (List Nat)) (readErr : Option String)

/-- `lister.parseFDs`: a permission error at open downgrades the count to
the sentinel -1 and succeeds; any other open error, and any error from
`direntCount`, is propagated. -/
def lister.parseFDs (fd : FDRes) (p : process) : Except String process :=
  match fd with
  | .permDenied => .ok { p with nfds := -1 }
  | .openErr e => .error e
  | .opened reads readErr =>
    match direntCount reads readErr with
    | .error e => .error e
    | .ok n => .ok { p with nfds := n }

/-- `strings.TrimSpace` after replacing NUL bytes with spaces, as
`parseCmdline` renders the null-separated argument vector. -/
def cleanCmdline (l : List Char) : String :=
  String.mk
    (((l.map fun c => if c = Char.ofNat 0 then ' ' else c).dropWhile
        Char.isWhitespace).reverse.dropWhile Char.isWhitespace).reverse

/-- One `/proc` directory entry as `loadProcess` observes it: the entry
name, the owner uid from `Stat_t`, and the outcomes of reading the
process's `stat` and `cmdline` files and opening its `fd` directory. -/
structure ProcEntry where
  name : String
  uid : Nat
  statRes : Except String (List Char)
  cmdRes : Except String (List Char)
  fdRes : FDRes

/-- Outcome of `lister.loadProcess` for one entry: a record, the
`errNotAProcess` sentinel (directory name not an integer), a returned
error, or a propagated Go panic from `parseStat`. -/
inductive LoadResult where
  | ok (p : process)
  | notAProcess
  | loadErr (e : String)
  | crash
deriving DecidableEq

/-- `lister.loadProcess`: parse the directory name as the pid (failure →
`errNotAProcess`), resolve the owner, parse the stat record, then read
the cmdline and count FDs only when the corresponding columns are
needed.  Every error other than `errNotAProcess` is returned to the
caller unchanged. -/
def lister.loadProcess (l : lister) (e : ProcEntry) : LoadResult :=
  match goParseInt 64 e.name.data with
  | .error _ => .notAProcess
  | .ok pid =>
    let p0 := { process.zero with pid := pid, user := l.userOf e.uid }
    match e.statRes with
    | .error err => .loadErr err
    | .ok content =>
      match l.parseStat p0 content with
      | .err m => .loadErr m
      | .crash => .crash
      | .ok p1 =>
        let r2 : LoadResult :=
          if colHas l.needCols colCmdline then
            match e.cmdRes with
            | .error err => .loadErr err
            | .ok bytes => .ok { p1 with cmdline := cleanCmdline bytes }
          else .ok p1
        match r2 with
        | .ok p2 =>
          if colHas l.needCols colNFDs then
            match lister.parseFDs e.fdRes p2 with
            | .error err => .loadErr err
            | .ok p3 => .ok p3
          else .ok p2
        | other => other

/-- Outcome of `lister.list`: the surviving records, an error aborting
the whole run, or a propagated panic. -/
inductive ListResult where
  | ok (ps : List process)
  | err (e : String)
  | crash
deriving DecidableEq

/-- The per-entry accumulation loop of `lister.list`: `errNotAProcess`
skips the entry, any other error aborts the entire listing. -/
def listLoop (l : lister) : List ProcEntry → List process → ListResult
  | [], acc => .ok acc
  | e :: rest, acc =>
    match l.loadProcess e with
    | .notAProcess => listLoop l rest acc
    | .loadErr m => .err m
    | .crash => .crash
    | .ok p => listLoop l rest (acc ++ [p])

/-- `lister.list` over the `/proc` directory entries: accumulate loaded
records, aggregate child/descendant counts when a tree column is needed,
then filter. -/
def lister.list (l : lister) (filt : filter) (entries : List ProcEntry) : ListResult :=
  match listLoop l entries [] with
  | .ok ps =>
    let ps1 := if colHas l.needCols (colNChild ||| colNDesc) then fillChildDesc ps else ps
    .ok (ps1.filter fun p => filt.includeP p)
  | other => other

/-! ## TableRenderer: `tableWriter` -/

/-- The `(name, rightAlign)` configuration of every column, in canonical
bit order (`colConfs` iterated from bit 0 upward). -/
def colConfList : List (Nat × String × Bool) :=
  [(colPID, "pid", true), (colPPID, "ppid", true), (colUser, "user", false),
   (colName, "name", false), (colPGID, "pgid", true), (colRSS, "rss", true),
   (colUptime, "uptime", true), (colUtime, "utime", true),
   (colStime, "stime", true), (colCutime, "cutime", true),
   (colCstime, "cstime", true), (colCPUTime, "cputime", true),
   (colNThreads, "nthreads", true), (colNFDs, "nfds", true),
   (colNChild, "nchild", true), (colNDesc, "ndesc", true),
   (colCmdline, "cmdline", false)]

/-- The `tableWriter`: terminal width (0 = not a terminal), per-column
alignment options and running widths, and the accumulated rows (row 0 is
the header). -/
structure tableWriter where
  termWidth : Nat
  opts : List Bool
  widths : List Nat
  cells : List (List String)
deriving DecidableEq

/-- `newTableWriter`: select the configured columns in canonical order,
seed the widths and the header row from the column names. -/
def newTableWriter (cols : Nat) (termW : Nat) : tableWriter :=
  let sel := colConfList.filter fun cc => colHas cols cc.1
  { termWidth := termW,
    opts := sel.map fun cc => cc.2.2,
    widths := sel.map fun cc => cc.2.1.length,
    cells := [sel.map fun cc => cc.2.1] }

/-- `tableWriter.append`: a cell-count mismatch is a panic (`none`);
otherwise widths grow to the running maximum and the row is stored. -/
def tableWriter.append (tw : tableWriter) (row : List String) : Option tableWriter :=
  if row.length = tw.opts.length then
    some { tw with
           widths := List.zipWith (fun w (c : String) => max w c.length) tw.widths row,
           cells := tw.cells ++ [row] }
  else none

/-- A run of `n` spaces. -/
def spacesStr (n : Nat) : String := String.mk (List.replicate n ' ')

/-- Render one row: two-space pad before every column but the first;
right-aligned cells are left-padded to the column width, left-aligned
cells right-padded except in the last column of the row. -/
def renderRow : Bool → List String → List Nat → List Bool → String
  | _, [], _, _ => ""
  | _, _ :: _, [], _ => ""
  | _, _ :: _, _ :: _, [] => ""
  | isFirst, cell :: cs, w :: ws, ra :: ras =>
    (if isFirst then "" else "  ") ++
    (if ra then spacesStr (w - cell.length) ++ cell
     else if cs.isEmpty then cell else cell ++ spacesStr (w - cell.length)) ++
    renderRow false cs ws ras

/-- The per-line truncation of `tableWriter.write`: when trimming is on,
a line longer than the terminal width is cut to `width - 3` characters
with a literal `...` appended. -/
def truncLine (trim : Bool) (tw : Nat) (s : String) : String :=
  if trim then (if tw < s.length then s.take (tw - 3) ++ "..." else s) else s

/-- `tableWriter.write`, producing the output lines.  Trimming is decided
at the header row: the terminal width must exceed 3 and the rendered
header must be strictly shorter than it; the same truncation check is
then applied to every line (the header can never exceed the width when
trimming is on). -/
def tableWriter.write (tw : tableWriter) : List String :=
  match tw.cells with
  | [] => []
  | h :: rest =>
    let hb := renderRow true h tw.widths tw.opts
    let trim : Bool := decide (3 < tw.termWidth) && decide (hb.length < tw.termWidth)
    truncLine trim tw.termWidth hb ::
      rest.map fun r => truncLine trim tw.termWidth (renderRow true r tw.widths tw.opts)

/-- The `case int64` cell formatter of `process.write`: the -1 sentinel
renders as `?`, every other value in decimal. -/
def int64Cell (v : Int) : String := if v = -1 then "?" else toString v

/-! ## Shared concrete inputs -/

/-- A lister with the snapshot constants of lp's own `parseStat` test:
a 10ms clock tick, 4096-byte pages, 10 minutes of uptime. -/
def sampleLister : lister :=
  { clockTick := 10000000, pageSize := 4096, needCols := colPID ||| colName,
    userOf := fun _ => "", uptime := 600000000000 }

/-- The stat record from lp's `TestListerParseStat`. -/
def sampleStatLine : List Char :=
  ("1860 (panel-6-indicat) S 1837 1689 1689 0 -1 4194304 2673 34 2 0 77 38 5 7 20 0 3 0 1971 440897536 6029 18446744073709551615 94731670310912 94731670333832 140730895617600 0 0 0 0 4096 0 0 0 0 17 0 0 0 0 0 0 94731672435056 94731672436756 94731700363264 140730895620536 140730895620840 140730895620840 140730895622086 0").data

/-- The record `sampleLister.parseStat` produces from `sampleStatLine`
(the expected values of lp's `TestListerParseStat`). -/
def sampleProc : process :=
  { process.zero with
    name := "panel-6-indicat", ppid := 1837, pgid := 1689, rss := 24694784,
    uptime := 580290000000, utime := 770000000, stime := 380000000,
    cutime := 50000000, cstime := 70000000, cpuTime := 1270000000,
    nthreads := 3 }

/-- The snapshot of lp's `TestFillChildDesc`: parent/child pairs
(1,0),(2,1),(5,1),(10,5),(11,5),(12,5),(13,5),(14,13),(15,14),(16,15),
(20,19),(21,19), with PID 19 absent. -/
def c1Snapshot : List process :=
  [{ process.zero with pid := 1, ppid := 0 },
   { process.zero with pid := 2, ppid := 1 },
   { process.zero with pid := 5, ppid := 1 },
   { process.zero with pid := 10, ppid := 5 },
   { process.zero with pid := 11, ppid := 5 },
   { process.zero with pid := 12, ppid := 5 },
   { process.zero with pid := 13, ppid := 5 },
   { process.zero with pid := 14, ppid := 13 },
   { process.zero with pid := 15, ppid := 14 },
   { process.zero with pid := 16, ppid := 15 },
   { process.zero with pid := 20, ppid := 19 },
   { process.zero with pid := 21, ppid := 19 }]

/-- The expected aggregation result for `c1Snapshot`. -/
def c1Expected : List process :=
  [{ process.zero with pid := 1, ppid := 0, nchild := 2, ndesc := 9 },
   { process.zero with pid := 2, ppid := 1 },
   { process.zero with pid := 5, ppid := 1, nchild := 4, ndesc := 7 },
   { process.zero with pid := 10, ppid := 5 },
   { process.zero with pid := 11, ppid := 5 },
   { process.zero with pid := 12, ppid := 5 },
   { process.zero with pid := 13, ppid := 5, nchild := 1, ndesc := 3 },
   { process.zero with pid := 14, ppid := 13, nchild := 1, ndesc := 2 },
   { process.zero with pid := 15, ppid := 14, nchild := 1, ndesc := 1 },
   { process.zero with pid := 16, ppid := 15 },
   { process.zero with pid := 20, ppid := 19 },
   { process.zero with pid := 21, ppid := 19 }]

/-! ## Lemmas: `fillChildDesc` touches only the two counters -/

/-- Forget the two counter fields `fillChildDesc` is allowed to write. -/
def eraseCounts (p : process) : process := { p with nchild := 0, ndesc := 0 }

theorem set_get_self {α : Type} :
    ∀ (l : List α) (n : Nat) (a : α), l.get? n = some a → l.set n a = l := by
  intro l
  induction l with
  | nil => intro n a h; simp at h
  | cons x xs ih =>
    intro n a h
    cases n with
    | zero =>
      simp only [List.get?_cons_zero, Option.some.injEq] at h
      simp [h]
    | succ m =>
      simp only [List.get?_cons_succ] at h
      simp [ih m a h]

theorem map_eraseCounts_incChild (ps : List process) (j : Nat) :
    (incChild ps j).map eraseCounts = ps.map eraseCounts := by
  unfold incChild
  cases h : ps.get? j with
  | none => rfl
  | some p =>
    have h2 : (ps.map eraseCounts).get? j = some (eraseCounts p) := by
      rw [List.get?_map, h]; rfl
    calc (ps.set j { p with nchild := p.nchild + 1 }).map eraseCounts
        = (ps.map eraseCounts).set j (eraseCounts { p with nchild := p.nchild + 1 }) :=
          List.map_set
      _ = (ps.map eraseCounts).set j (eraseCounts p) := rfl
      _ = ps.map eraseCounts := set_get_self _ j _ h2

theorem map_eraseCounts_incDesc (ps : List process) (j : Nat) :
    (incDesc ps j).map eraseCounts = ps.map eraseCounts := by
  unfold incDesc
  cases h : ps.get? j with
  | none => rfl
  | some p =>
    have h2 : (ps.map eraseCounts).get? j = some (eraseCounts p) := by
      rw [List.get?_map, h]; rfl
    calc (ps.set j { p with ndesc := p.ndesc + 1 }).map eraseCounts
        = (ps.map eraseCounts).set j (eraseCounts { p with ndesc := p.ndesc + 1 }) :=
          List.map_set
      _ = (ps.map eraseCounts).set j (eraseCounts p) := rfl
      _ = ps.map eraseCounts := set_get_self _ j _ h2

theorem map_eraseCounts_genStepFold (par : Nat → Option Nat) :
    ∀ (rem : List Nat) (acc : List process) (l0 : List Nat),
      ((rem.foldl (genStep par) (acc, l0)).1).map eraseCounts = acc.map eraseCounts := by
  intro rem
  induction rem with
  | nil => intro acc l0; rfl
  | cons i rest ih =>
    intro acc l0
    simp only [List.foldl_cons]
    cases h : par i with
    | none =>
      have hg : genStep par (acc, l0) i = (acc, l0) := by simp [genStep, h]
      rw [hg, ih]
    | some j =>
      have hg : genStep par (acc, l0) i = (incDesc acc j, l0 ++ [j]) := by
        simp [genStep, h]
      rw [hg, ih, map_eraseCounts_incDesc]

theorem map_eraseCounts_fillPass2 (par : Nat → Option Nat) :
    ∀ (fuel : Nat) (acc : List process) (rem : List Nat),
      (fillPass2 par fuel acc rem).map eraseCounts = acc.map eraseCounts := by
  intro fuel
  induction fuel with
  | zero => intro acc rem; rfl
  | succ f ih =>
    intro acc rem
    cases rem with
    | nil => rfl
    | cons i rest =>
      simp only [fillPass2]
      rw [ih]
      exact map_eraseCounts_genStepFold par (i :: rest) acc []

theorem map_eraseCounts_pass1 (ps : List process) :
    ∀ (l : List Nat) (acc : List process),
      (l.foldl
        (fun acc i =>
          match parentIdx ps i with
          | some j => incChild acc j
          | none => acc) acc).map eraseCounts = acc.map eraseCounts := by
  intro l
  induction l with
  | nil => intro acc; rfl
  | cons i rest ih =>
    intro acc
    simp only [List.foldl_cons]
    cases h : parentIdx ps i with
    | none => exact ih acc
    | some j => exact (ih (incChild acc j)).trans (map_eraseCounts_incChild acc j)

/-- C1: on the 12-record snapshot with parent pairs
(1,0),(2,1),(5,1),(10,5),(11,5),(12,5),(13,5),(14,13),(15,14),(16,15),
(20,19),(21,19) and PID 19 absent, `fillChildDesc` gives node 1 the
counts 2/9, node 5 the counts 4/7, node 13 the counts 1/3, nodes 20 and
21 (and every leaf) 0/0; and on every snapshot it leaves every field
other than `nchild` and `ndesc` of every record unchanged. -/
theorem claim_C1 :
    fillChildDesc c1Snapshot = c1Expected ∧
      ∀ ps : List process, (fillChildDesc ps).map eraseCounts = ps.map eraseCounts := by
  constructor
  · decide
  · intro ps
    unfold fillChildDesc
    rw [map_eraseCounts_fillPass2, map_eraseCounts_pass1]

/-- C10: `direntCount` subtracts two unconditionally: an empty directory
stream yields -2, as does a stream whose single record carries inode 0,
and a stream whose buffer is too short to hold any well-formed record. -/
theorem claim_C10 :
    direntCount [] none = .ok (-2) ∧
      direntCount [[0, 0, 0, 0, 0, 0, 0, 0, 0, 0, 0, 0, 0, 0, 0, 0, 24, 0, 8, 0, 0, 0, 0, 0]]
          none = .ok (-2) ∧
      direntCount [[1, 2, 3]] none = .ok (-2) := by
  refine ⟨by decide, by decide, by decide⟩

/-! ## C7: permission errors on the FD directory -/

/-- A filter with no predicates requested (and `thisPID = 0`, as when
`-all` is given). -/
def emptyFilter : filter :=
  { nameRe := none, cmdRe := none, pid := 0, ppid := 0, pgid := 0,
    thisPID := 0, user := "" }

/-- A well-formed stat record used by the enumeration scenarios. -/
def goodStatLine : List Char :=
  ("1 (a) R 0 1 1 0 -1 4 0 0 0 0 1 2 3 4 20 0 1 0 100 1000 50 0").data

/-- The record `sampleLister` derives from directory entry "5" with
`goodStatLine`. -/
def goodProc5 : process :=
  { process.zero with
    pid := 5, name := "a", pgid := 1, rss := 204800, uptime := 599000000000,
    utime := 10000000, stime := 20000000, cutime := 30000000,
    cstime := 40000000, cpuTime := 100000000, nthreads := 1 }

/-- A healthy `/proc` entry named "5". -/
def goodEntry : ProcEntry :=
  { name := "5", uid := 0, statRes := .ok goodStatLine, cmdRes := .ok [],
    fdRes := .opened [] none }

/-- The same entry but with permission denied on its `fd` directory. -/
def c7Entry : ProcEntry := { goodEntry with fdRes := .permDenied }

/-- A lister that needs the FD-count column. -/
def c7Lister : lister :=
  { sampleLister with needCols := colPID ||| colName ||| colNFDs }

/-- C7: a permission error opening the FD directory sets the count to the
-1 sentinel and succeeds, every other error of the FD-counting step (open
errors and `ReadDirent` errors) is propagated; a process whose FD
directory is permission-denied is still loaded with the rest of its
record intact and the listing continues; and the -1 sentinel renders as
the table cell `?`. -/
theorem claim_C7 :
    (∀ p : process, lister.parseFDs .permDenied p = .ok { p with nfds := -1 }) ∧
      (∀ (e : String) (p : process), lister.parseFDs (.openErr e) p = .error e) ∧
      (∀ (e : String) (reads : List (List Nat)) (p : process),
        lister.parseFDs (.opened reads (some e)) p = .error e) ∧
      c7Lister.list emptyFilter [c7Entry] = .ok [{ goodProc5 with nfds := -1 }] ∧
      int64Cell (-1) = "?" :=
  ⟨fun _ => rfl, fun _ _ => rfl, fun _ _ _ => rfl, by decide, rfl⟩

/-! ## C4: `parseStat` is not total — panics modelled as `crash` -/

theorem skipSpacesGo_cons_ne {c : Char} (h : c ≠ ' ') (l : List Char) :
    skipSpacesGo (c :: l) = some (c :: l) := by
  simp [skipSpacesGo, h]

theorem idxOfGo_append_self (c : Char) :
    ∀ (l : List Char), c ∉ l → ∀ t, idxOfGo c (l ++ c :: t) = some l.length := by
  intro l
  induction l with
  | nil => intro _ t; simp [idxOfGo]
  | cons x xs ih =>
    intro h t
    have hx : ¬ x = c := fun hxc => h (hxc ▸ List.mem_cons_self x xs)
    have hxs : c ∉ xs := fun hm => h (List.mem_cons_of_mem x hm)
    simp [idxOfGo, hx, ih hxs t]

/-- One non-column-2 iteration of the stat loop at column 1, when the
token delimiter is found. -/
theorem statLoop_col1 (l : lister) (fuel : Nat) (stat : List Char) (p : process)
    (c : Char) (cs : List Char) (i : Nat)
    (hskip : skipSpacesGo stat = some (c :: cs))
    (hidx : idxOfGo ' ' (c :: cs) = some i) :
    l.statLoop (fuel + 1) 1 stat p = l.statLoop fuel 2 ((c :: cs).drop i) p := by
  simp [lister.statLoop, hskip, hidx]

/-- The column-2 iteration returns the malformed-record error when the
first non-space byte is not `(`. -/
theorem statLoop_col2_err (l : lister) (fuel : Nat) (stat : List Char) (p : process)
    (c : Char) (cs : List Char)
    (hskip : skipSpacesGo stat = some (c :: cs)) (hc : c ≠ '(') :
    l.statLoop (fuel + 1) 2 stat p = .err "malformed /stat" := by
  simp [lister.statLoop, hskip, hc]

/-- C4 counterexample: on the record `123 (abc` — a `(`-field with no
closing `)` anywhere — `parseStat` neither returns a record nor an error
value: Go slices `stat[1:i]` with `i = -1`, an out-of-range panic,
modelled by the `crash` outcome. -/
theorem claim_C4_cex :
    sampleLister.parseStat process.zero ("123 (abc").data = .crash := by decide

/-- C4 (amended): `parseStat` returns the malformed-record error
`malformed /stat` whenever the token at field 2 does not start with `(`,
and a numeric-field parse failure (non-digits where the ppid digits
belong) is returned as an error value; but it is not total: a record
whose remainder lacks `)` after the `(`, or a record truncated so that
an expected space delimiter is absent, makes it panic with an
out-of-range slice index (`crash`) instead of returning an error. -/
theorem claim_C4 :
    (∀ (l : lister) (p0 : process) (ph : Char) (pt : List Char) (c : Char)
        (rest : List Char),
        ' ' ∉ (ph :: pt) → c ≠ '(' → c ≠ ' ' →
        l.parseStat p0 ((ph :: pt) ++ ' ' :: c :: rest) = .err "malformed /stat") ∧
      sampleLister.parseStat process.zero
          ("7 (b) S zz 1 1 0 -1 4 0 0 0 0 1 2 3 4 20 0 1 0 100 1000 50 0").data =
        .err "invalid syntax" ∧
      sampleLister.parseStat process.zero ("123 (abc").data = .crash ∧
      sampleLister.parseStat process.zero ("123 (abc) S 1837").data = .crash := by
  refine ⟨?_, by decide, by decide, by decide⟩
  intro l p0 ph pt c rest hsp hc1 hc2
  have hph : ph ≠ ' ' := fun h => hsp (h ▸ List.mem_cons_self ph pt)
  have e1 : skipSpacesGo ((ph :: pt) ++ ' ' :: c :: rest) =
      some (ph :: (pt ++ ' ' :: c :: rest)) := by
    rw [List.cons_append]
    exact skipSpacesGo_cons_ne hph _
  have e2 : idxOfGo ' ' (ph :: (pt ++ ' ' :: c :: rest)) = some (ph :: pt).length := by
    have := idxOfGo_append_self ' ' (ph :: pt) hsp (c :: rest)
    simpa using this
  have e3 : (ph :: (pt ++ ' ' :: c :: rest)).drop (ph :: pt).length = ' ' :: c :: rest := by
    simp only [List.length_cons, List.drop_succ_cons]
    exact List.drop_left pt (' ' :: c :: rest)
  have e4 : skipSpacesGo (' ' :: c :: rest) = some (c :: rest) := by
    simp only [skipSpacesGo, if_pos rfl]
    exact skipSpacesGo_cons_ne hc2 rest
  show l.statLoop (24 + 1) 1 ((ph :: pt) ++ ' ' :: c :: rest) p0 = .err "malformed /stat"
  rw [statLoop_col1 l 24 _ p0 _ _ _ e1 e2, e3]
  show l.statLoop (23 + 1) 2 (' ' :: c :: rest) p0 = .err "malformed /stat"
  exact statLoop_col2_err l 23 _ p0 c rest e4 hc1

/-- C4 witness: the amended theorem applied to the record `9 x`. -/
theorem claim_C4_witness :
    sampleLister.parseStat process.zero (['9'] ++ ' ' :: 'x' :: []) =
      .err "malformed /stat" :=
  claim_C4.1 sampleLister process.zero '9' [] 'x' []
    (by decide) (by decide) (by decide)

/-! ## C5: a malformed record aborts the whole listing -/

/-- An entry whose stat record is present but fails positional parsing
(`zz` where the ppid digits belong). -/
def badEntry : ProcEntry :=
  { name := "7", uid := 0,
    statRes := .ok ("7 (b) S zz 1 1 0 -1 4 0 0 0 0 1 2 3 4 20 0 1 0 100 1000 50 0").data,
    cmdRes := .ok [], fdRes := .opened [] none }

/-- A `/proc` entry whose name is not a pid (`errNotAProcess`). -/
def notAProcEntry : ProcEntry :=
  { name := "cpuinfo", uid := 0, statRes := .error "never read",
    cmdRes := .error "never read", fdRes := .opened [] none }

/-- C5 counterexample: with a healthy entry followed by an entry whose
status record is present but fails positional parsing, `lister.list`
aborts the entire run with the parse error instead of skipping the bad
entry and listing the healthy process. -/
theorem claim_C5_cex :
    sampleLister.list emptyFilter [goodEntry, badEntry] = .err "invalid syntax" := by
  decide

/-- C5 (amended): only entries whose directory names fail integer parsing
(`errNotAProcess`) are skipped; an entry whose status record is present
but fails positional parsing aborts the entire listing with that error,
no matter how many healthy entries surround it. -/
theorem claim_C5 :
    (∀ (l : lister) (filt : filter) (es1 : List ProcEntry) (e : ProcEntry)
        (es2 : List ProcEntry) (m : String),
        (∀ x ∈ es1, (∃ p, l.loadProcess x = .ok p) ∨ l.loadProcess x = .notAProcess) →
        l.loadProcess e = .loadErr m →
        l.list filt (es1 ++ e :: es2) = .err m) ∧
      sampleLister.list emptyFilter [goodEntry, notAProcEntry] = .ok [goodProc5] := by
  constructor
  · intro l filt es1 e es2 m hok he
    have hloop : ∀ acc, listLoop l (es1 ++ e :: es2) acc = .err m := by
      induction es1 with
      | nil => intro acc; simp [listLoop, he]
      | cons x rest ih =>
        intro acc
        have hx := hok x (List.mem_cons_self x rest)
        have hrest : ∀ y ∈ rest, (∃ p, l.loadProcess y = .ok p) ∨
            l.loadProcess y = .notAProcess :=
          fun y hy => hok y (List.mem_cons_of_mem x hy)
        rcases hx with ⟨p, hp⟩ | hp
        · simp only [List.cons_append, listLoop, hp]
          exact (by simpa using ih hrest (acc ++ [p]) : _)
        · simp only [List.cons_append, listLoop, hp]
          exact (by simpa using ih hrest acc : _)
    unfold lister.list
    rw [hloop []]
  · decide

/-- C5 witness: the amended abort behaviour applied to a healthy entry
followed by the malformed one. -/
theorem claim_C5_witness :
    sampleLister.list emptyFilter ([goodEntry] ++ badEntry :: []) =
      .err "invalid syntax" :=
  claim_C5.1 sampleLister emptyFilter [goodEntry] badEntry [] "invalid syntax"
    (fun x hx => by
      have hxg : x = goodEntry := by simpa using hx
      exact hxg ▸ Or.inl ⟨goodProc5, by decide⟩)
    (by decide)

/-! ## C6: `direntCount` on a buffer of well-formed records -/

theorem take_append_of_le_len {α : Type} :
    ∀ (n : Nat) (c r : List α), n ≤ c.length → (c ++ r).take n = c.take n := by
  intro n
  induction n with
  | zero => intro c r _; rfl
  | succ m ih =>
    intro c r h
    cases c with
    | nil => simp at h
    | cons x xs =>
      simp only [List.cons_append, List.take_succ_cons]
      rw [ih xs r (by simpa using h)]

theorem drop_append_of_le_len {α : Type} :
    ∀ (n : Nat) (c r : List α), n ≤ c.length → (c ++ r).drop n = c.drop n ++ r := by
  intro n
  induction n with
  | zero => intro c r _; rfl
  | succ m ih =>
    intro c r h
    cases c with
    | nil => simp at h
    | cons x xs =>
      simp only [List.cons_append, List.drop_succ_cons]
      exact ih xs r (by simpa using h)

theorem readIntLE_append (c r : List Nat) (off size : Nat)
    (h : off + size ≤ c.length) :
    readIntLE (c ++ r) off size = readIntLE c off size := by
  unfold readIntLE
  rw [if_neg (by simp; omega), if_neg (by omega)]
  rw [drop_append_of_le_len off c r (by omega),
    take_append_of_le_len size (c.drop off) r (by simp; omega)]

theorem readIntLE_isSome (c : List Nat) (off size : Nat) (h : off + size ≤ c.length) :
    ∃ v, readIntLE c off size = some v := by
  unfold readIntLE
  rw [if_neg (by omega)]
  exact ⟨_, rfl⟩

/-- The dirent scan over a buffer that is a concatenation of well-formed
fixed-layout records counts exactly the records with non-zero inode. -/
theorem direntScan_chunks :
    ∀ (chunks : List (List Nat)) (fuel : Nat),
      chunks.flatten.length < fuel →
      (∀ ch ∈ chunks, 18 ≤ ch.length ∧ direntReclen ch = some ch.length) →
      direntScanLoop fuel chunks.flatten =
        chunks.countP (fun ch => (direntIno ch).getD 0 != 0) := by
  intro chunks
  induction chunks with
  | nil =>
    intro fuel hf _
    cases fuel with
    | zero => simp at hf
    | succ f => rfl
  | cons ch rest ih =>
    intro fuel hf hwf
    obtain ⟨hlen, hreclen⟩ := hwf ch (List.mem_cons_self ch rest)
    have hrest : ∀ x ∈ rest, 18 ≤ x.length ∧ direntReclen x = some x.length :=
      fun x hx => hwf x (List.mem_cons_of_mem ch hx)
    obtain ⟨hd, tl, rfl⟩ : ∃ hd tl, ch = hd :: tl := by
      cases ch with
      | nil => simp at hlen
      | cons hd tl => exact ⟨hd, tl, rfl⟩
    cases fuel with
    | zero => simp at hf
    | succ f =>
      have hr2 : direntReclen (hd :: (tl ++ rest.flatten)) = some (hd :: tl).length := by
        show direntReclen ((hd :: tl) ++ rest.flatten) = some (hd :: tl).length
        unfold direntReclen
        rw [readIntLE_append (hd :: tl) rest.flatten 16 2 (by simpa using hlen)]
        exact hreclen
      obtain ⟨v, hv⟩ := readIntLE_isSome (hd :: tl) 0 8
        (by have := hlen; simp only [List.length_cons] at this ⊢; omega)
      have hv' : direntIno (hd :: tl) = some v := hv
      have htake : (hd :: (tl ++ rest.flatten)).take (hd :: tl).length = hd :: tl :=
        List.take_left (hd :: tl) rest.flatten
      have hdrop : (hd :: (tl ++ rest.flatten)).drop (hd :: tl).length = rest.flatten :=
        List.drop_left (hd :: tl) rest.flatten
      have hflat2 : ((hd :: tl) :: rest).flatten = hd :: (tl ++ rest.flatten) := by simp
      rw [hflat2]
      have hle : ¬ (hd :: (tl ++ rest.flatten)).length < (hd :: tl).length := by
        simp
      simp only [direntScanLoop, hr2, if_neg hle, htake, hv', hdrop]
      have hfr : rest.flatten.length < f := by
        simp only [List.flatten_cons, List.length_append, List.length_cons] at hf
        omega
      rw [ih f hfr hrest]
      simp only [List.countP_cons, hv']
      rcases Nat.eq_zero_or_pos v with hv0 | hv0
      · subst hv0; simp
      · have hne : v ≠ 0 := by omega
        simp [hne, Nat.add_comm]

/-- C6: for a directory stream whose accumulated buffer is a
concatenation of well-formed fixed-layout records (length at least 18 and
a `Reclen` field equal to the record length), `direntCount` returns the
number of records with non-zero inode minus exactly two. -/
theorem claim_C6 (reads chunks : List (List Nat))
    (hflat : reads.flatten = chunks.flatten)
    (hwf : ∀ ch ∈ chunks, 18 ≤ ch.length ∧ direntReclen ch = some ch.length) :
    direntCount reads none =
      .ok ((chunks.countP (fun ch => (direntIno ch).getD 0 != 0) : Int) - 2) := by
  unfold direntCount
  rw [hflat, direntScan_chunks chunks (chunks.flatten.length + 1) (by omega) hwf]

/-- A well-formed 24-byte directory record with the given inode. -/
def direntRecord (ino : Nat) : List Nat :=
  [ino, 0, 0, 0, 0, 0, 0, 0] ++ [0, 0, 0, 0, 0, 0, 0, 0] ++ [24, 0] ++ [0, 0, 0, 0, 0, 0]

/-- The seven records of a directory holding five files plus `.` and
`..`. -/
def c6Chunks : List (List Nat) :=
  [direntRecord 11, direntRecord 12, direntRecord 3, direntRecord 4,
   direntRecord 5, direntRecord 6, direntRecord 7]

set_option maxRecDepth 4000 in
/-- C6 witness: a buffer of seven non-deleted records — five ordinary
entries plus `.` and `..` — counts as five, as in lp's
`TestDirentCount`. -/
theorem claim_C6_witness : direntCount [c6Chunks.flatten] none = .ok 5 := by
  rw [claim_C6 [c6Chunks.flatten] c6Chunks rfl (by decide)]
  decide

/-! ## C3: derived time metrics -/

/-- The cpu-time invariant: the stored total is the (wrapped) sum of the
four stored components. -/
def cpuEq (p : process) : Prop :=
  p.cpuTime = wrap64 (p.utime + p.stime + p.cutime + p.cstime)

theorem deriveUptime_nonneg (snapUp tick : Int) (s : Nat) :
    0 ≤ deriveUptime snapUp tick s := by
  simp only [deriveUptime]
  split <;> omega

/-- Loop invariant of `statLoop`: once column 17 has run the cpu-time sum
holds, once column 22 has run the age is non-negative, and both facts
survive to any successful return. -/
theorem statLoop_inv (l : lister) :
    ∀ (fuel col : Nat) (stat : List Char) (p q : process),
      l.statLoop fuel col stat p = .ok q →
      (18 ≤ col → cpuEq p) → (23 ≤ col → 0 ≤ p.uptime) →
      cpuEq q ∧ 0 ≤ q.uptime := by
  intro fuel
  induction fuel with
  | zero =>
    intro col stat p q h _ _
    rw [lister.statLoop] at h
    exact StatResult.noConfusion h
  | succ f ih =>
    intro col stat p q h h1 h2
    rw [lister.statLoop] at h
    split at h
    · exact StatResult.noConfusion h
    · exact StatResult.noConfusion h
    · by_cases hcol2 : col = 2
      · rw [if_pos hcol2] at h
        split at h
        · exact StatResult.noConfusion h
        · split at h
          · exact StatResult.noConfusion h
          · exact ih _ _ _ q h (fun hc => absurd hc (by omega))
              (fun hc => absurd hc (by omega))
      · rw [if_neg hcol2] at h
        split at h
        · exact StatResult.noConfusion h
        · by_cases hcol4 : col = 4
          · rw [if_pos hcol4] at h
            split at h
            · exact StatResult.noConfusion h
            · exact ih _ _ _ q h (fun hc => absurd hc (by omega))
                (fun hc => absurd hc (by omega))
          · rw [if_neg hcol4] at h
            by_cases hcol5 : col = 5
            · rw [if_pos hcol5] at h
              split at h
              · exact StatResult.noConfusion h
              · exact ih _ _ _ q h (fun hc => absurd hc (by omega))
                  (fun hc => absurd hc (by omega))
            · rw [if_neg hcol5] at h
              by_cases hcol14 : col = 14
              · rw [if_pos hcol14] at h
                split at h
                · exact StatResult.noConfusion h
                · exact ih _ _ _ q h (fun hc => absurd hc (by omega))
                    (fun hc => absurd hc (by omega))
              · rw [if_neg hcol14] at h
                by_cases hcol15 : col = 15
                · rw [if_pos hcol15] at h
                  split at h
                  · exact StatResult.noConfusion h
                  · exact ih _ _ _ q h (fun hc => absurd hc (by omega))
                      (fun hc => absurd hc (by omega))
                · rw [if_neg hcol15] at h
                  by_cases hcol16 : col = 16
                  · rw [if_pos hcol16] at h
                    split at h
                    · exact StatResult.noConfusion h
                    · exact ih _ _ _ q h (fun hc => absurd hc (by omega))
                        (fun hc => absurd hc (by omega))
                  · rw [if_neg hcol16] at h
                    by_cases hcol17 : col = 17
                    · rw [if_pos hcol17] at h
                      split at h
                      · exact StatResult.noConfusion h
                      · exact ih _ _ _ q h (fun _ => rfl)
                          (fun hc => absurd hc (by omega))
                    · rw [if_neg hcol17] at h
                      by_cases hcol20 : col = 20
                      · rw [if_pos hcol20] at h
                        split at h
                        · exact StatResult.noConfusion h
                        · exact ih _ _ _ q h (fun _ => h1 (by omega))
                            (fun hc => absurd hc (by omega))
                      · rw [if_neg hcol20] at h
                        by_cases hcol22 : col = 22
                        · rw [if_pos hcol22] at h
                          split at h
                          · exact StatResult.noConfusion h
                          · exact ih _ _ _ q h (fun _ => h1 (by omega))
                              (fun _ => deriveUptime_nonneg _ _ _)
                        · rw [if_neg hcol22] at h
                          by_cases hcol24 : col = 24
                          · rw [if_pos hcol24] at h
                            split at h
                            · exact StatResult.noConfusion h
                            · cases h
                              exact ⟨h1 (by omega), h2 (by omega)⟩
                          · rw [if_neg hcol24] at h
                            exact ih _ _ _ q h (fun hc => h1 (by omega)) (fun hc => h2 (by omega))

/-- C3: for every input on which `parseStat` succeeds, the stored total
cpu time is exactly the int64 sum of the four stored tick-derived
components, and the stored age is never negative; moreover the age
derivation used at column 22 equals
`max 0 (snapshot_uptime - start_ticks * clock_tick)` in int64
arithmetic, clamping any negative difference to zero. -/
theorem claim_C3 :
    (∀ (l : lister) (p0 : process) (stat : List Char) (q : process),
        l.parseStat p0 stat = .ok q →
        q.cpuTime = wrap64 (q.utime + q.stime + q.cutime + q.cstime) ∧
          0 ≤ q.uptime) ∧
      ∀ (snapUp tick : Int) (s : Nat),
        deriveUptime snapUp tick s =
          max 0 (wrap64 (snapUp - wrap64 (toInt64 s * tick))) := by
  constructor
  · intro l p0 stat q h
    exact statLoop_inv l 25 1 stat p0 q h
      (fun hc => absurd hc (by omega)) (fun hc => absurd hc (by omega))
  · intro snapUp tick s
    simp only [deriveUptime]
    rw [max_def]
    split <;> split <;> omega

set_option maxRecDepth 100000 in
/-- C3 witness: the theorem applied to lp's own test record, together
with the age formula at a start time whose tick product exceeds the
snapshot uptime. -/
theorem claim_C3_witness :
    (sampleProc.cpuTime =
        wrap64 (sampleProc.utime + sampleProc.stime + sampleProc.cutime +
          sampleProc.cstime) ∧
      0 ≤ sampleProc.uptime) ∧
      deriveUptime 100 7 200 = max 0 (wrap64 (100 - wrap64 (toInt64 200 * 7))) :=
  ⟨claim_C3.1 sampleLister process.zero sampleStatLine sampleProc (by decide),
   claim_C3.2 100 7 200⟩

/-! ## C2: name extraction between first `(` and last `)` -/

theorem lastIdxOfGo_eq_none (c : Char) : ∀ l : List Char, c ∉ l → lastIdxOfGo c l = none := by
  intro l
  induction l with
  | nil => intro _; rfl
  | cons x xs ih =>
    intro h
    have hx : ¬ x = c := fun hxc => h (hxc ▸ List.mem_cons_self x xs)
    have hxs : c ∉ xs := fun hm => h (List.mem_cons_of_mem x hm)
    simp [lastIdxOfGo, ih hxs, hx]

theorem lastIdxOfGo_append_self (c : Char) (m t : List Char) (ht : c ∉ t) :
    lastIdxOfGo c (m ++ c :: t) = some m.length := by
  induction m with
  | nil => simp [lastIdxOfGo, lastIdxOfGo_eq_none c t ht]
  | cons x xs ih => simp [lastIdxOfGo, ih]

/-- The column-2 iteration of the stat loop when the field starts with
`(` and a `)` exists: the name is the bytes strictly between the `(` and
the last `)`, and parsing resumes after that `)`. -/
theorem statLoop_col2_ok (l : lister) (fuel : Nat) (stat : List Char) (p : process)
    (rest : List Char) (i : Nat)
    (hskip : skipSpacesGo stat = some ('(' :: rest))
    (hlast : lastIdxOfGo ')' ('(' :: rest) = some i) :
    l.statLoop (fuel + 1) 2 stat p =
      l.statLoop fuel 3 (('(' :: rest).drop (i + 1))
        { p with name := String.mk (rest.take (i - 1)) } := by
  simp [lister.statLoop, hskip, hlast]

/-- The record the columns after the name (`c2Tail`) produce, before the
name is filled in. -/
def c2Proc : process :=
  { process.zero with
    pgid := 1, rss := 204800, uptime := 599000000000, utime := 10000000,
    stime := 20000000, cutime := 30000000, cstime := 40000000,
    cpuTime := 100000000, nthreads := 1 }

/-- Fields 3 through 24 of the C2 records. -/
def c2Tail : List Char :=
  (" S 0 1 1 0 -1 4 0 0 0 0 1 2 3 4 20 0 1 0 100 1000 50 0").data

set_option maxRecDepth 100000 in
/-- Columns 3 onward of the stat loop on `c2Tail`, for any partially
filled record. -/
theorem statLoop_c2_tail (q : process) :
    sampleLister.statLoop 23 3 c2Tail q =
      .ok { q with
            ppid := 0, pgid := 1, rss := 204800, uptime := 599000000000,
            utime := 10000000, stime := 20000000, cutime := 30000000,
            cstime := 40000000, cpuTime := 100000000, nthreads := 1 } := rfl

set_option maxRecDepth 100000 in
/-- C2: for a record whose field 2 starts with `(` and whose remainder
contains `)` only where written, the extracted name is exactly the
bytes strictly between the first `(` and the last `)` — whatever they
are, including names containing both `(` and `)` such as
`my(app)name`. -/
theorem claim_C2 :
    (∀ mid : List Char,
        sampleLister.parseStat process.zero
          ('1' :: '2' :: '3' :: ' ' :: '(' :: (mid ++ ')' :: c2Tail)) =
          .ok { c2Proc with name := String.mk mid }) ∧
      sampleLister.parseStat process.zero
        ("123 (my(app)name) S 0 1 1 0 -1 4 0 0 0 0 1 2 3 4 20 0 1 0 100 1000 50 0").data =
        .ok { c2Proc with name := "my(app)name" } := by
  constructor
  · intro mid
    have e1 : skipSpacesGo ('1' :: '2' :: '3' :: ' ' :: '(' :: (mid ++ ')' :: c2Tail)) =
        some ('1' :: '2' :: '3' :: ' ' :: '(' :: (mid ++ ')' :: c2Tail)) :=
      skipSpacesGo_cons_ne (by decide) _
    have e2 : idxOfGo ' ' ('1' :: '2' :: '3' :: ' ' :: '(' :: (mid ++ ')' :: c2Tail)) =
        some 3 := by
      simp [idxOfGo]
    show sampleLister.statLoop (24 + 1) 1
        ('1' :: '2' :: '3' :: ' ' :: '(' :: (mid ++ ')' :: c2Tail)) process.zero = _
    rw [statLoop_col1 sampleLister 24 _ process.zero _ _ 3 e1 e2]
    show sampleLister.statLoop (23 + 1) 2
        (' ' :: '(' :: (mid ++ ')' :: c2Tail)) process.zero = _
    have e3 : skipSpacesGo (' ' :: '(' :: (mid ++ ')' :: c2Tail)) =
        some ('(' :: (mid ++ ')' :: c2Tail)) := by
      simp [skipSpacesGo]
    have e4 : lastIdxOfGo ')' ('(' :: (mid ++ ')' :: c2Tail)) = some (mid.length + 1) := by
      have h0 : lastIdxOfGo ')' (mid ++ ')' :: c2Tail) = some mid.length :=
        lastIdxOfGo_append_self ')' mid c2Tail (by decide)
      simp [lastIdxOfGo, h0]
    rw [statLoop_col2_ok sampleLister 23 _ process.zero _ (mid.length + 1) e3 e4]
    have e5 : (mid ++ ')' :: c2Tail).take (mid.length + 1 - 1) = mid := by
      simp only [Nat.add_sub_cancel]
      rw [take_append_of_le_len mid.length mid (')' :: c2Tail) (le_refl _)]
      exact List.take_length mid
    have e6 : ('(' :: (mid ++ ')' :: c2Tail)).drop (mid.length + 1 + 1) = c2Tail := by
      rw [List.drop_succ_cons]
      rw [show mid ++ ')' :: c2Tail = (mid ++ [')']) ++ c2Tail by simp]
      exact List.drop_left' (by simp)
    rw [e5, e6]
    exact statLoop_c2_tail { process.zero with name := String.mk mid }
  · decide

/-! ## C8: terminal-width truncation of `tableWriter.write` -/

/-- The test table of lp's `TestTableWriter`: columns pid/ppid/name with
rows (3,123,abc), (10,123,d), (11,1,uvwxyz). -/
def c8Table (w : Nat) : Option tableWriter :=
  (((newTableWriter (colPID ||| colPPID ||| colName) w).append ["3", "123", "abc"]).bind
      fun t => t.append ["10", "123", "d"]).bind
    fun t => t.append ["11", "1", "uvwxyz"]

/-- C8: truncation is enabled exactly when the terminal width exceeds 3
and the rendered header is strictly shorter than it; when enabled, every
row longer than the width is cut to `width - 3` characters plus `...`
(the header never is, being shorter than the width); when the header does
not fit — or the width is the not-a-terminal sentinel 0 — no line is
truncated.  Concretely, on lp's test table: width 16 truncates only the
`uvwxyz` row, widths 10 (narrower than the header) and 0 truncate
nothing. -/
theorem claim_C8 :
    (∀ (t : tableWriter) (h : List String) (rest : List (List String)),
        t.cells = h :: rest →
        ((3 < t.termWidth ∧ (renderRow true h t.widths t.opts).length < t.termWidth) →
          t.write = renderRow true h t.widths t.opts ::
            rest.map fun r =>
              if t.termWidth < (renderRow true r t.widths t.opts).length then
                (renderRow true r t.widths t.opts).take (t.termWidth - 3) ++ "..."
              else renderRow true r t.widths t.opts) ∧
        (¬ (3 < t.termWidth ∧ (renderRow true h t.widths t.opts).length < t.termWidth) →
          t.write = (h :: rest).map fun r => renderRow true r t.widths t.opts)) ∧
      (c8Table 16).map tableWriter.write =
        some ["pid  ppid  name", "  3   123  abc", " 10   123  d", " 11     1  uv..."] ∧
      (c8Table 10).map tableWriter.write =
        some ["pid  ppid  name", "  3   123  abc", " 10   123  d", " 11     1  uvwxyz"] ∧
      (c8Table 0).map tableWriter.write =
        some ["pid  ppid  name", "  3   123  abc", " 10   123  d", " 11     1  uvwxyz"] := by
  refine ⟨?_, by decide, by decide, by decide⟩
  intro t h rest hc
  constructor
  · intro htrim
    have h3 : decide (3 < t.termWidth) = true := by simp [htrim.1]
    have h4 : decide ((renderRow true h t.widths t.opts).length < t.termWidth) = true := by
      simp [htrim.2]
    have h5 : ¬ t.termWidth < (renderRow true h t.widths t.opts).length := by
      omega
    simp only [tableWriter.write, hc, h3, h4, Bool.and_self, truncLine, if_true]
    rw [if_neg h5]
  · intro hn
    have hfalse : (decide (3 < t.termWidth) &&
        decide ((renderRow true h t.widths t.opts).length < t.termWidth)) = false := by
      rcases Decidable.not_and_iff_or_not.mp hn with h' | h' <;> simp [h']
    simp only [tableWriter.write, hc, hfalse, truncLine, List.map_cons]
    simp

/-- The table writer state after the three appends at width 16. -/
def c8TW : tableWriter :=
  { termWidth := 16, opts := [true, true, false], widths := [3, 4, 6],
    cells := [["pid", "ppid", "name"], ["3", "123", "abc"], ["10", "123", "d"],
              ["11", "1", "uvwxyz"]] }

/-- C8 witness: the truncation rule applied to the concrete test table at
width 16. -/
theorem claim_C8_witness :
    c8TW.write =
      ["pid  ppid  name", "  3   123  abc", " 10   123  d", " 11     1  uv..."] := by
  have h := (claim_C8.1 c8TW ["pid", "ppid", "name"]
      [["3", "123", "abc"], ["10", "123", "d"], ["11", "1", "uvwxyz"]] rfl).1
    ⟨by decide, by decide⟩
  rw [h]
  decide

/-! ## C9: termination of the generation walk -/

/-- Iterated parent steps on record indices (`k` applications of the
`byPID`-parent lookup). -/
def parK (par : Nat → Option Nat) : Nat → Nat → Option Nat
  | 0, a => some a
  | k + 1, a => (parK par k a).bind par

theorem buildByPID_bound :
    ∀ (ps : List process) (m : Int → Option Nat) (i0 B : Nat),
      (∀ q j, m q = some j → j < B) → i0 + ps.length ≤ B →
      ∀ q j, buildByPID m i0 ps q = some j → j < B := by
  intro ps
  induction ps with
  | nil => intro m i0 B hm _ q j h; exact hm q j h
  | cons p rest ih =>
    intro m i0 B hm hle q j h
    refine ih _ (i0 + 1) B ?_ (by simp at hle; omega) q j h
    intro q' j' h'
    by_cases hq : q' = p.pid
    · rw [if_pos hq] at h'
      have : j' = i0 := by simpa using h'.symm
      subst this
      simp at hle
      omega
    · rw [if_neg hq] at h'
      exact hm q' j' h'

theorem byPID_lt (ps : List process) (q : Int) (j : Nat) :
    byPID ps q = some j → j < ps.length :=
  buildByPID_bound ps (fun _ => none) 0 ps.length
    (fun _ _ h => Option.noConfusion h) (by omega) q j

theorem parentIdx_lt (ps : List process) (a b : Nat) :
    parentIdx ps a = some b → b < ps.length := by
  unfold parentIdx
  cases ps.get? a with
  | none => intro h; exact Option.noConfusion h
  | some p => exact byPID_lt ps p.ppid b

theorem genStep_snd (par : Nat → Option Nat) :
    ∀ (rem : List Nat) (acc : List process) (l0 : List Nat),
      (rem.foldl (genStep par) (acc, l0)).2 = l0 ++ rem.filterMap par := by
  intro rem
  induction rem with
  | nil => intro acc l0; simp
  | cons i rest ih =>
    intro acc l0
    simp only [List.foldl_cons]
    cases hp : par i with
    | none =>
      have hg : genStep par (acc, l0) i = (acc, l0) := by simp [genStep, hp]
      rw [hg, ih, List.filterMap_cons, hp]
    | some j =>
      have hg : genStep par (acc, l0) i = (incDesc acc j, l0 ++ [j]) := by
        simp [genStep, hp]
      rw [hg, ih, List.filterMap_cons, hp]
      simp

theorem nextRem_eq (ps : List process) (rem : List Nat) :
    nextRem ps rem = rem.filterMap (parentIdx ps) := by
  unfold nextRem
  rw [genStep_snd]
  simp

theorem genSeq_eq (ps : List process) :
    ∀ k, genSeq ps k = (List.range ps.length).filterMap (parK (parentIdx ps) k) := by
  intro k
  induction k with
  | zero =>
    simp only [genSeq, parK]
    exact (List.filterMap_some _).symm
  | succ k ih =>
    show nextRem ps (genSeq ps k) = _
    rw [nextRem_eq, ih, List.filterMap_filterMap]
    rfl

theorem parK_add (par : Nat → Option Nat) :
    ∀ (i j a : Nat), parK par (i + j) a = (parK par j a).bind (parK par i) := by
  intro i
  induction i with
  | zero =>
    intro j a
    rw [Nat.zero_add]
    cases parK par j a <;> simp [parK]
  | succ i ih =>
    intro j a
    rw [show i + 1 + j = (i + j) + 1 by omega]
    show (parK par (i + j) a).bind par = _
    rw [ih]
    cases parK par j a with
    | none => rfl
    | some w =>
      show (parK par i w).bind par = parK par (i + 1) w
      rfl

theorem parK_lt (ps : List process) :
    ∀ (k a b : Nat), parK (parentIdx ps) k a = some b → a < ps.length →
      b < ps.length := by
  intro k
  induction k with
  | zero =>
    intro a b h ha
    have : a = b := by simpa [parK] using h
    omega
  | succ k ih =>
    intro a b h ha
    rcases hw : parK (parentIdx ps) k a with _ | w
    · rw [parK, hw] at h; exact Option.noConfusion h
    · rw [parK, hw] at h
      exact parentIdx_lt ps w b h

theorem parK_some_of_le (par : Nat → Option Nat) (i m a z : Nat)
    (him : i ≤ m) (hz : parK par m a = some z) :
    ∃ w, parK par i a = some w := by
  rw [show m = (m - i) + i by omega, parK_add] at hz
  rcases hw : parK par i a with _ | w
  · rw [hw] at hz; exact Option.noConfusion hz
  · exact ⟨w, rfl⟩

theorem transGen_of_parK (par : Nat → Option Nat) :
    ∀ (d w w' : Nat), parK par d w = some w' → 1 ≤ d →
      Relation.TransGen (fun a b => par a = some b) w w' := by
  intro d
  induction d with
  | zero => intro w w' _ h1; omega
  | succ e ih =>
    intro w w' h _
    rcases hu : parK par e w with _ | u
    · rw [parK, hu] at h; exact Option.noConfusion h
    · rw [parK, hu] at h
      cases e with
      | zero =>
        have : u = w := by simpa [parK] using hu.symm
        subst this
        exact Relation.TransGen.single h
      | succ e' => exact Relation.TransGen.tail (ih w u hu (by omega)) h

/-- Under acyclicity there is no parent chain of length `ps.length` or
more: the `ps.length + 1` nodes of such a chain would repeat, giving a
record that is its own proper ancestor. -/
theorem parK_cycle_free (ps : List process) (hacyc : AcyclicParents ps) :
    ∀ (k a z : Nat), a < ps.length → ps.length ≤ k →
      parK (parentIdx ps) k a ≠ some z := by
  intro k a z ha hk hz
  have hsome : ∀ i : Nat, i ≤ k → ∃ w, parK (parentIdx ps) i a = some w ∧
      w < ps.length := by
    intro i hi
    obtain ⟨w, hw⟩ := parK_some_of_le (parentIdx ps) i k a z hi hz
    exact ⟨w, hw, parK_lt ps i a w hw ha⟩
  have hbound : ∀ i : Fin (k + 1), (parK (parentIdx ps) i.val a).getD 0 < ps.length := by
    intro i
    obtain ⟨w, hw, hwlt⟩ := hsome i.val (Nat.le_of_lt_succ i.isLt)
    rw [hw]
    exact hwlt
  have key : ∀ i j : Fin (k + 1), i.val < j.val →
      (parK (parentIdx ps) i.val a).getD 0 = (parK (parentIdx ps) j.val a).getD 0 →
      False := by
    intro i j hij hval
    obtain ⟨wi, hwi, _⟩ := hsome i.val (Nat.le_of_lt_succ i.isLt)
    obtain ⟨wj, hwj, _⟩ := hsome j.val (Nat.le_of_lt_succ j.isLt)
    rw [hwi, hwj] at hval
    simp only [Option.getD_some] at hval
    subst hval
    rw [show j.val = (j.val - i.val) + i.val by omega, parK_add, hwi] at hwj
    simp only [Option.some_bind] at hwj
    exact hacyc wi (transGen_of_parK (parentIdx ps) (j.val - i.val) wi wi hwj (by omega))
  obtain ⟨i, j, hne, heq⟩ := Fintype.exists_ne_map_eq_of_card_lt
    (fun i : Fin (k + 1) =>
      (⟨(parK (parentIdx ps) i.val a).getD 0, hbound i⟩ : Fin ps.length))
    (by simp only [Fintype.card_fin]; omega)
  have hval : (parK (parentIdx ps) i.val a).getD 0 =
      (parK (parentIdx ps) j.val a).getD 0 := by
    simpa using congrArg Fin.val heq
  have hvne : i.val ≠ j.val := fun hv => hne (Fin.val_injective hv)
  rcases Nat.lt_or_gt_of_ne hvne with hij | hij
  · exact key i j hij hval
  · exact key j i hij hval.symm

theorem parK_transition (par : Nat → Option Nat) :
    ∀ (d k a r0 : Nat), parK par k a = some r0 → parK par (k + d) a = none →
      ∃ m, k ≤ m ∧ m < k + d ∧ (∃ r, parK par m a = some r) ∧
        parK par (m + 1) a = none := by
  intro d
  induction d with
  | zero =>
    intro k a r0 h0 hnone
    rw [Nat.add_zero, h0] at hnone
    exact Option.noConfusion hnone
  | succ e ih =>
    intro k a r0 h0 hnone
    rcases h1 : parK par (k + 1) a with _ | r1
    · exact ⟨k, le_refl k, by omega, ⟨r0, h0⟩, h1⟩
    · obtain ⟨m, hm1, hm2, hm3, hm4⟩ := ih (k + 1) a r1 h1
        (by rw [show k + 1 + e = k + (e + 1) by omega]; exact hnone)
      exact ⟨m, by omega, by omega, hm3, hm4⟩

theorem length_filterMap_lt {α β : Type} (f : α → Option β) :
    ∀ (l : List α) (r : α), r ∈ l → f r = none →
      (l.filterMap f).length < l.length := by
  intro l
  induction l with
  | nil => intro r hr; intro _; simp at hr
  | cons x xs ih =>
    intro r hr hf
    rcases List.mem_cons.mp hr with rfl | hr'
    · rw [List.filterMap_cons, hf]
      simp only [List.length_cons]
      exact Nat.lt_succ_of_le (List.length_filterMap_le f xs)
    · rcases hf2 : f x with _ | b
      · rw [List.filterMap_cons, hf2]
        simp only [List.length_cons]
        exact Nat.lt_succ_of_le (List.length_filterMap_le f xs)
      · rw [List.filterMap_cons, hf2]
        simp only [List.length_cons]
        exact Nat.succ_lt_succ (ih r hr' hf)

/-- C9: when the snapshot's parent-link graph is acyclic, pass 2 of
`fillChildDesc` terminates: the generation sequence reaches the empty
generation within `ps.length` steps, and while a generation is nonempty
the next one is strictly shorter (each generation shrinks toward the
root set). -/
theorem claim_C9 (ps : List process) (hacyc : AcyclicParents ps) :
    genSeq ps ps.length = [] ∧
      ∀ k, genSeq ps k ≠ [] →
        (genSeq ps (k + 1)).length < (genSeq ps k).length := by
  have hnever : ∀ (k a z : Nat), a < ps.length → ps.length ≤ k →
      parK (parentIdx ps) k a ≠ some z := parK_cycle_free ps hacyc
  constructor
  · by_contra hne
    obtain ⟨z, hz⟩ := List.exists_mem_of_ne_nil _ hne
    rw [genSeq_eq, List.mem_filterMap] at hz
    obtain ⟨a, ha, hpk⟩ := hz
    exact hnever ps.length a z (List.mem_range.mp ha) (le_refl _) hpk
  · intro k hne
    obtain ⟨z, hz⟩ := List.exists_mem_of_ne_nil _ hne
    rw [genSeq_eq, List.mem_filterMap] at hz
    obtain ⟨a, ha, hpk⟩ := hz
    have han : a < ps.length := List.mem_range.mp ha
    have hkn : k < ps.length := by
      by_contra hge
      exact hnever k a z han (by omega) hpk
    have hnone : parK (parentIdx ps) ps.length a = none := by
      rcases hp : parK (parentIdx ps) ps.length a with _ | w
      · rfl
      · exact absurd hp (hnever ps.length a w han (le_refl _))
    obtain ⟨m, hkm, hmn, ⟨r, hr⟩, hnone1⟩ := parK_transition (parentIdx ps)
      (ps.length - k) k a z hpk
      (by rw [show k + (ps.length - k) = ps.length by omega]; exact hnone)
    have hparr : parentIdx ps r = none := by
      have hst : parK (parentIdx ps) (m + 1) a =
          (parK (parentIdx ps) m a).bind (parentIdx ps) := rfl
      rw [hr] at hst
      simp only [Option.some_bind] at hst
      rw [hnone1] at hst
      exact hst.symm
    have hrk : r ∈ genSeq ps k := by
      rw [genSeq_eq, List.mem_filterMap]
      rw [show m = k + (m - k) by omega, parK_add] at hr
      rcases hw : parK (parentIdx ps) (m - k) a with _ | w
      · rw [hw] at hr; exact Option.noConfusion hr
      · rw [hw] at hr
        simp only [Option.some_bind] at hr
        refine ⟨w, List.mem_range.mpr ?_, hr⟩
        exact parK_lt ps (m - k) a w hw han
    show (nextRem ps (genSeq ps k)).length < (genSeq ps k).length
    rw [nextRem_eq]
    exact length_filterMap_lt (parentIdx ps) (genSeq ps k) r hrk hparr

theorem acyclic_of_rank {R : Nat → Nat → Prop} (f : Nat → Nat)
    (hf : ∀ a b, R a b → f b < f a) : ∀ i, ¬ Relation.TransGen R i i := by
  have key : ∀ a b, Relation.TransGen R a b → f b < f a := by
    intro a b h
    induction h with
    | single h => exact hf _ _ h
    | tail _ h ih => exact lt_trans (hf _ _ h) ih
  intro i hi
  exact absurd (key i i hi) (lt_irrefl _)

/-- A three-record chain 1 ← 2 ← 3 used as the C9 witness snapshot. -/
def c9Snapshot : List process :=
  [{ process.zero with pid := 1, ppid := 0 },
   { process.zero with pid := 2, ppid := 1 },
   { process.zero with pid := 3, ppid := 2 }]

theorem c9Snapshot_acyclic : AcyclicParents c9Snapshot := by
  apply acyclic_of_rank (fun i => i)
  intro a b hab
  have hab' : parentIdx c9Snapshot a = some b := hab
  match a, hab' with
  | 0, hab' =>
    rw [show parentIdx c9Snapshot 0 = none from by decide] at hab'
    exact Option.noConfusion hab'
  | 1, hab' =>
    rw [show parentIdx c9Snapshot 1 = some 0 from by decide] at hab'
    simp only [Option.some.injEq] at hab'
    omega
  | 2, hab' =>
    rw [show parentIdx c9Snapshot 2 = some 1 from by decide] at hab'
    simp only [Option.some.injEq] at hab'
    omega
  | n + 3, hab' =>
    have hg : parentIdx c9Snapshot (n + 3) = none := by
      unfold parentIdx
      rw [List.get?_eq_none.mpr (by simp [c9Snapshot])]
      rfl
    rw [hg] at hab'
    exact Option.noConfusion hab'

/-- C9 witness: the termination theorem applied to the three-record
chain. -/
theorem claim_C9_witness :
    genSeq c9Snapshot 3 = [] ∧
      (genSeq c9Snapshot 1).length < (genSeq c9Snapshot 0).length :=
  ⟨(claim_C9 c9Snapshot c9Snapshot_acyclic).1,
   (claim_C9 c9Snapshot c9Snapshot_acyclic).2 0 (by decide)⟩
